import Mathlib

/-!
# Verification of the anthropometry-playground statistical core

Shallow embedding of the statistics / classification core of the
`anthropometry-playground` repository (`math.js`, `data-utils.js`,
`plot-component.js`, `plots/density-plot.js`) together with proofs of the
specification claims about it.

Conventions of the embedding:
* JavaScript numbers are modelled as exact real numbers (`ℝ`); where a
  routine is pure field-and-order arithmetic (the Gauss-Jordan matrix
  inversion) it is stated over an arbitrary `LinearOrderedField` so that it
  is executable over `ℚ` as well.
* JavaScript objects used as string-keyed dictionaries are modelled as
  association lists (`List (String × _)`), preserving insertion order.
* Fallible code paths are modelled with `Option`; `-Infinity` appearing as a
  log-probability is modelled with `EReal`'s `⊥`.
* Division by zero follows Lean's `x / 0 = 0` convention; the spots where the
  JavaScript source can actually divide by zero are called out in comments.
-/

namespace Anthro

/-! ## `math.js`: free-standing statistics helpers -/

/-- `mean(x)` from `math.js`: arithmetic mean, 0 for the empty array.
The JS `reduce((a, b) => a + b, 0)` is a left fold. -/
noncomputable def listMean (x : List ℝ) : ℝ :=
  if x.length = 0 then 0 else x.foldl (· + ·) 0 / x.length

/-- `stddev(x, mx)` from `math.js`: population standard deviation
(`√(Σ(v−mx)²/N)`), 0 for the empty array. -/
noncomputable def listStddev (x : List ℝ) (mx : ℝ) : ℝ :=
  if x.length = 0 then 0
  else Real.sqrt (x.foldl (fun s v => s + (v - mx) ^ 2) 0 / x.length)

/-- `covariance(x, mx, y, my)` from `math.js`: population covariance; returns
0 when the arrays differ in length or are empty.  The JS loop reads `y[i]`
alongside `x[i]`, which under the length guard is the pointwise zip. -/
noncomputable def listCovariance (x : List ℝ) (mx : ℝ) (y : List ℝ) (my : ℝ) : ℝ :=
  if x.length ≠ y.length ∨ x.length = 0 then 0
  else ((x.zip y).foldl (fun s p => s + (p.1 - mx) * (p.2 - my)) 0) / x.length

/-- `gaussianPdf(x, mx, sx)` from `math.js`: Gaussian density, 0 when the
standard deviation is 0 (explicit guard in the source). -/
noncomputable def gaussianPdf (x mx sx : ℝ) : ℝ :=
  if sx = 0 then 0
  else
    let z := (x - mx) / sx
    (1 / (sx * Real.sqrt (2 * Real.pi))) * Real.exp (-0.5 * (z * z))

/-- `zScore(x, mx, sx)` from `data-utils.js`: standard score, 0 when the
standard deviation is 0. -/
noncomputable def zScore (x mx sx : ℝ) : ℝ :=
  if sx = 0 then 0 else (x - mx) / sx

/-! ## `math.js`: the `Series` data container

The memoization caches (`this._stats`) only store previously computed values
of the pure statistics below, so the embedding drops them; every cached
read-back equals the recomputation. -/

/-- The `Series` class: a dictionary from dimension names to numeric columns
(`constructor(values)`).  Insertion order of the JS object is preserved by
the association list. -/
structure Series where
  values : List (String × List ℝ)

/-- `Series.valuesOf(dim)`: the column for `dim`, or the empty array for an
unknown dimension (`this.values[dim] || []`). -/
def Series.valuesOf (s : Series) (dim : String) : List ℝ :=
  (s.values.lookup dim).getD []

/-- `Series.dimensions()`. -/
def Series.dimensions (s : Series) : List String :=
  s.values.map Prod.fst

/-- `Series.mean(dim)`. -/
noncomputable def Series.mean (s : Series) (dim : String) : ℝ :=
  listMean (s.valuesOf dim)

/-- `Series.stddev(dim)`. -/
noncomputable def Series.stddev (s : Series) (dim : String) : ℝ :=
  listStddev (s.valuesOf dim) (s.mean dim)

/-- `Series.covariance(dim1, dim2)` (cached under the ordered key
`"dim1,dim2"` in the source; the cache is value-transparent). -/
noncomputable def Series.covariance (s : Series) (dim1 dim2 : String) : ℝ :=
  listCovariance (s.valuesOf dim1) (s.mean dim1) (s.valuesOf dim2) (s.mean dim2)

/-- `Series.correlation(dim1, dim2)`: `cov/(s1·s2)` guarded by
`s1 > 0 && s2 > 0`, else 0. -/
noncomputable def Series.correlation (s : Series) (dim1 dim2 : String) : ℝ :=
  if 0 < s.stddev dim1 ∧ 0 < s.stddev dim2 then
    s.covariance dim1 dim2 / (s.stddev dim1 * s.stddev dim2)
  else 0

/-- `Series.pdf(dim)`: the memoized closure `x ↦ gaussianPdf(x, m, s)` over
the dimension's own mean and standard deviation. -/
noncomputable def Series.pdf (s : Series) (dim : String) : ℝ → ℝ :=
  fun x => gaussianPdf x (s.mean dim) (s.stddev dim)

/-! ## `plot-component.js`: the evidence scale -/

/-- The qualitative evidence categories (Lee & Wagenmakers 2013). -/
inductive EvidenceCategory where
  | extreme
  | veryStrong
  | strong
  | moderate
  | anecdotal
deriving DecidableEq, Repr

/-- The record returned by `getEvidenceCategory`. -/
structure Evidence where
  category : EvidenceCategory
  label : String
  favors : String
deriving DecidableEq, Repr

/-- The local `absBf = bf >= 1 ? bf : 1 / bf` of `getEvidenceCategory`,
valued in `EReal` so that the JS quotient `1 / 0 = Infinity` is carried
faithfully as `⊤`; for every other `bf` it is the real quotient. -/
noncomputable def absBayesFactor (bf : ℝ) : EReal :=
  if 1 ≤ bf then (bf : EReal)
  else if bf = 0 then ⊤
  else ((1 / bf : ℝ) : EReal)

/-- `getEvidenceCategory(bf)` from `plot-component.js`: the thresholds on
`absBf` are inclusive lower bounds, compared in `EReal` so that the
`bf = 0` case (where JS computes `absBf = 1/0 = Infinity`) lands in the
`extreme` bucket exactly as the source does. -/
noncomputable def getEvidenceCategory (bf : ℝ) : Evidence :=
  let absBf := absBayesFactor bf
  let favors := if 1 ≤ bf then "first" else "second"
  if ((100 : ℝ) : EReal) ≤ absBf then ⟨.extreme, "Extreme", favors⟩
  else if ((30 : ℝ) : EReal) ≤ absBf then ⟨.veryStrong, "Very Strong", favors⟩
  else if ((10 : ℝ) : EReal) ≤ absBf then ⟨.strong, "Strong", favors⟩
  else if ((3 : ℝ) : EReal) ≤ absBf then ⟨.moderate, "Moderate", favors⟩
  else ⟨.anecdotal, "Anecdotal", favors⟩

/-! ## `data-utils.js`: `BayesianClassifier` (Naive Bayes) -/

/-- `BayesianClassifier.DEFAULT_LABELS`. -/
def DEFAULT_LABELS : List String := ["Male", "Female"]

/-- The `BayesianClassifier` state after construction. -/
structure BayesianClassifier where
  seriesList : List Series
  labels : List String
  priors : List ℝ

/-- The `BayesianClassifier` constructor: labels default to
`DEFAULT_LABELS.slice(0, seriesList.length)` (truncation only), priors to the
uniform `1/k` vector built by `seriesList.map(() => 1.0 / seriesList.length)`. -/
noncomputable def mkBayesianClassifier (seriesList : List Series)
    (labels : Option (List String)) : BayesianClassifier where
  seriesList := seriesList
  labels := labels.getD (DEFAULT_LABELS.take seriesList.length)
  priors := seriesList.map fun _ => 1 / (seriesList.length : ℝ)

/-- A query point: the JS object mapping dimension names to values, in
insertion order. -/
abbrev Point := List (String × ℝ)

/-- The per-class loop body of `computeLogPosteriors`: starting from the
accumulated log-probability `acc`, fold the remaining dimensions; a
zero-density dimension short-circuits to `-Infinity` (`⊥ : EReal`). -/
noncomputable def nbLogPosterior (s : Series) (acc : ℝ) : Point → EReal
  | [] => (acc : EReal)
  | (dim, value) :: rest =>
    let p := gaussianPdf value (s.mean dim) (s.stddev dim)
    if 0 < p then nbLogPosterior s (acc + Real.log p) rest else (⊥ : EReal)

/-- `BayesianClassifier.computeLogPosteriors(point)`: one entry per class
`i`, pairing the class label with `log(prior_i)` plus the per-dimension
log-likelihood fold. -/
noncomputable def computeLogPosteriors (cl : BayesianClassifier) (point : Point) :
    List (String × EReal) :=
  (List.range cl.seriesList.length).map fun i =>
    ((cl.labels.getD i ""),
      nbLogPosterior ((cl.seriesList.getD i ⟨[]⟩)) (Real.log (cl.priors.getD i 0)) point)

/-! ## `data-utils.js`: `LDAClassifier.invertMatrix`

Gauss-Jordan elimination with partial pivoting on the augmented `[M | I]`
system.  The augmented `n × 2n` matrix is modelled as the pair of its left
and right `n × n` blocks; every JS row operation loops `j` over all `2n`
columns, i.e. acts identically on both blocks.  The routine is pure
field-and-order arithmetic, so it is stated over any `LinearOrderedField`
(instantiated at `ℝ` by the classifier and at `ℚ` for concrete runs). -/

variable {α : Type} [LinearOrderedField α] {n : ℕ}

/-- The singularity threshold `1e-12` from `invertMatrix`. -/
def gjEps : α := 1 / 10 ^ 12

/-- The augmented matrix `[A | I]` as its (left block, right block) pair. -/
abbrev Aug (n : ℕ) (α : Type) :=
  Matrix (Fin n) (Fin n) α × Matrix (Fin n) (Fin n) α

/-- The partial-pivoting scan of `invertMatrix`: starting from `maxRow = col`,
every row strictly below `col` replaces the current candidate when its entry
in column `col` is strictly larger in magnitude. -/
def pivotRow (a : Aug n α) (col : Fin n) : Fin n :=
  ((List.finRange n).filter (fun r => col < r)).foldl
    (fun maxRow row => if |a.1 row col| > |a.1 maxRow col| then row else maxRow)
    col

/-- The row swap `[aug[col], aug[maxRow]] = [aug[maxRow], aug[col]]`,
applied to both blocks. -/
def swapAug (a : Aug n α) (col maxRow : Fin n) : Aug n α :=
  (a.1.submatrix (Equiv.swap col maxRow) id, a.2.submatrix (Equiv.swap col maxRow) id)

/-- The pivot-row scaling `aug[col][j] /= pivot` over all `2n` columns. -/
def scaleAug (a : Aug n α) (col : Fin n) (pivot : α) : Aug n α :=
  (a.1.updateRow col fun j => a.1 col j / pivot,
   a.2.updateRow col fun j => a.2 col j / pivot)

/-- The elimination loop: every row other than `col` subtracts
`factor * aug[col][j]` across all `2n` columns, where `factor` is that row's
entry in column `col` (read from the left block before the update). -/
def elimAug (a : Aug n α) (col : Fin n) : Aug n α :=
  (Matrix.of fun row j =>
      if row = col then a.1 row j else a.1 row j - a.1 row col * a.1 col j,
   Matrix.of fun row j =>
      if row = col then a.2 row j else a.2 row j - a.1 row col * a.2 col j)

/-- One column step of `invertMatrix`: find the pivot, swap it into place,
fail if its magnitude is below `1e-12`, otherwise scale the pivot row and
eliminate the column everywhere else. -/
def gjStep (a : Aug n α) (col : Fin n) : Option (Aug n α) :=
  let a1 := swapAug a col (pivotRow a col)
  if |a1.1 col col| < gjEps then none
  else some (elimAug (scaleAug a1 col (a1.1 col col)) col)

/-- `LDAClassifier.invertMatrix(matrix)`: run the column steps left to right
over `[M | I]`; on success the inverse is the right block
(`aug.map(row => row.slice(n))`). -/
def invertMatrix (M : Matrix (Fin n) (Fin n) α) : Option (Matrix (Fin n) (Fin n) α) :=
  (((List.finRange n).foldlM gjStep ((M, 1) : Aug n α))).map Prod.snd

/-- The formal reading of "during Gauss-Jordan elimination with partial
pivoting, some pivot's magnitude falls below `1e-12`": at some column `c` the
first `c` steps succeed and every remaining candidate entry of column `c`
(rows `≥ c`, among which the pivot is the one of maximal magnitude) is below
the threshold. -/
def SmallPivotOccurs (M : Matrix (Fin n) (Fin n) α) : Prop :=
  ∃ (c : Fin n) (a : Aug n α),
    ((List.finRange n).take c).foldlM gjStep ((M, 1) : Aug n α) = some a ∧
      ∀ r : Fin n, c ≤ r → |a.1 r c| < gjEps

/-! ## `data-utils.js`: `LDAClassifier`

The constructor throws unless exactly 2 series are supplied, so the state is
modelled with the two series (and their labels / priors) as explicit fields;
`priors` defaults to `[0.5, 0.5]`. -/

/-- The `LDAClassifier` state after construction. -/
structure LDAClassifier where
  s0 : Series
  s1 : Series
  label0 : String
  label1 : String
  prior0 : ℝ
  prior1 : ℝ

/-- `point[d]` for a dimension name `d` (always present when `d` is drawn
from `Object.keys(point)`). -/
def pointVal (point : Point) (d : String) : ℝ :=
  (point.lookup d).getD 0

/-- `LDAClassifier.computePooledCovariance(dims)`: the `k×k` matrix with
cells `((n0−1)·cov0 + (n1−1)·cov1) / (n0+n1−2)`, where `n0`, `n1` are the
lengths of the two classes' arrays for `dims[0]`.  The `(n−2)` denominator is
applied unconditionally (for `n0+n1 = 2` the JS source divides by zero; in
this exact model `x / 0 = 0`). -/
noncomputable def computePooledCovariance (cl : LDAClassifier) (dims : List String) :
    Matrix (Fin dims.length) (Fin dims.length) ℝ :=
  let n0 : ℕ := (cl.s0.valuesOf (dims.getD 0 "")).length
  let n1 : ℕ := (cl.s1.valuesOf (dims.getD 0 "")).length
  Matrix.of fun i j =>
    (((n0 : ℝ) - 1) * cl.s0.covariance (dims.get i) (dims.get j) +
        ((n1 : ℝ) - 1) * cl.s1.covariance (dims.get i) (dims.get j)) /
      ((n0 : ℝ) + (n1 : ℝ) - 2)

/-- The diagonal fallback inverse built by `computeDiscriminantScores` when
the pooled covariance is singular: `diagInv[i][i] = pooledCov[i][i] > 0 ?
1/pooledCov[i][i] : 0`, zero off the diagonal. -/
noncomputable def diagInvOf {k : ℕ} (pc : Matrix (Fin k) (Fin k) ℝ) :
    Matrix (Fin k) (Fin k) ℝ :=
  Matrix.of fun i j =>
    if i = j then (if 0 < pc i i then (pc i i)⁻¹ else 0) else 0

/-- The per-class body of `_computeScoresWithInverse`:
`score = x'·Σ⁻¹·μ − ½·μ'·Σ⁻¹·μ + log(prior)`, the nested loops being the
finite sums below. -/
noncomputable def ldaScoreFor (dims : List String) (point : Point)
    (invCov : Matrix (Fin dims.length) (Fin dims.length) ℝ)
    (s : Series) (prior : ℝ) : ℝ :=
  let x : Fin dims.length → ℝ := fun i => pointVal point (dims.get i)
  let mu : Fin dims.length → ℝ := fun i => s.mean (dims.get i)
  let invCovMu : Fin dims.length → ℝ := fun i => ∑ j, invCov i j * mu j
  let xInvCovMu : ℝ := ∑ i, x i * invCovMu i
  let muInvCovMu : ℝ := ∑ i, mu i * invCovMu i
  xInvCovMu - 0.5 * muInvCovMu + Real.log prior

/-- `LDAClassifier._computeScoresWithInverse(point, dims, invCov)`: the
`c = 0, 1` loop pushing one labelled score per class. -/
noncomputable def ldaScoresWithInverse (cl : LDAClassifier) (dims : List String)
    (point : Point) (invCov : Matrix (Fin dims.length) (Fin dims.length) ℝ) :
    List (String × ℝ) :=
  [(cl.label0, ldaScoreFor dims point invCov cl.s0 cl.prior0),
   (cl.label1, ldaScoreFor dims point invCov cl.s1 cl.prior1)]

/-- `LDAClassifier.computeDiscriminantScores(point)`: invert the pooled
covariance over the point's dimensions; on singularity fall back to the
diagonal inverse (the `console.warn` branch). -/
noncomputable def computeDiscriminantScores (cl : LDAClassifier) (point : Point) :
    List (String × ℝ) :=
  let dims := point.map Prod.fst
  let pooledCov := computePooledCovariance cl dims
  match invertMatrix pooledCov with
  | none => ldaScoresWithInverse cl dims point (diagInvOf pooledCov)
  | some invCov => ldaScoresWithInverse cl dims point invCov

/-- The singular-covariance fallback distance of
`computeMahalanobisDistances`: per-dimension standardized Euclidean,
`√(Σ z²)` accumulated over the point's dimensions. -/
noncomputable def standardizedEuclidean (s : Series) (dims : List String)
    (point : Point) : ℝ :=
  Real.sqrt (dims.foldl
    (fun dist dim =>
      dist + zScore (pointVal point dim) (s.mean dim) (s.stddev dim) *
        zScore (pointVal point dim) (s.mean dim) (s.stddev dim))
    0)

/-- The non-singular Mahalanobis distance: `√((x−μ)' Σ⁻¹ (x−μ))` with the
double loop as a double sum. -/
noncomputable def mahalanobisFor (dims : List String) (point : Point)
    (invCov : Matrix (Fin dims.length) (Fin dims.length) ℝ) (s : Series) : ℝ :=
  let x : Fin dims.length → ℝ := fun i => pointVal point (dims.get i)
  let mu : Fin dims.length → ℝ := fun i => s.mean (dims.get i)
  let diff : Fin dims.length → ℝ := fun i => x i - mu i
  Real.sqrt (∑ i, ∑ j, diff i * invCov i j * diff j)

/-- `LDAClassifier.computeMahalanobisDistances(point)`. -/
noncomputable def computeMahalanobisDistances (cl : LDAClassifier) (point : Point) :
    List (String × ℝ) :=
  let dims := point.map Prod.fst
  let pooledCov := computePooledCovariance cl dims
  match invertMatrix pooledCov with
  | none =>
    [(cl.label0, standardizedEuclidean cl.s0 dims point),
     (cl.label1, standardizedEuclidean cl.s1 dims point)]
  | some invCov =>
    [(cl.label0, mahalanobisFor dims point invCov cl.s0),
     (cl.label1, mahalanobisFor dims point invCov cl.s1)]

/-- One entry of `LDAClassifier.computePerDimensionEvidence`'s result (the
`zScores` object is keyed by the two labels, in order). -/
structure DimEvidence where
  weight : ℝ
  contribution : ℝ
  bayesFactor : ℝ
  evidence : Evidence
  z0 : ℝ
  z1 : ℝ

/-- The univariate Bayes factor `p1 > 0 ? p0 / p1 : p0 > 0 ? Infinity : 1`
shared by both branches of `computePerDimensionEvidence`.  Exact-real model:
the `Infinity` arm cannot be represented in `ℝ`; the source reaches it only
when exactly one class has zero density, and there it feeds
`getEvidenceCategory`, for which this model keeps the JS quotient `p0 / p1`
(with `x / 0 = 0`). -/
noncomputable def univariateBayesFactor (p0 p1 : ℝ) : ℝ :=
  if 0 < p1 then p0 / p1 else if 0 < p0 then p0 / p1 else 1

/-- The singular-covariance fallback entry of `computePerDimensionEvidence`:
uniform weight `1/k`, contribution `log(bayesFactor)`, univariate Bayes
factor and z-scores. -/
noncomputable def univariateFallbackEntry (cl : LDAClassifier) (k : ℕ)
    (point : Point) (dim : String) : DimEvidence :=
  let value := pointVal point dim
  let m0 := cl.s0.mean dim
  let s0 := cl.s0.stddev dim
  let m1 := cl.s1.mean dim
  let s1 := cl.s1.stddev dim
  let p0 := gaussianPdf value m0 s0
  let p1 := gaussianPdf value m1 s1
  let bf := univariateBayesFactor p0 p1
  { weight := 1 / (k : ℝ)
    contribution := Real.log bf
    bayesFactor := bf
    evidence := getEvidenceCategory bf
    z0 := zScore value m0 s0
    z1 := zScore value m1 s1 }

/-- The LDA weight vector `w = Σ⁻¹ (μ0 − μ1)` of
`computePerDimensionEvidence`. -/
noncomputable def ldaWeights (cl : LDAClassifier) (dims : List String)
    (invCov : Matrix (Fin dims.length) (Fin dims.length) ℝ) :
    Fin dims.length → ℝ :=
  let muDiff : Fin dims.length → ℝ := fun j =>
    cl.s0.mean (dims.get j) - cl.s1.mean (dims.get j)
  fun i => ∑ j, invCov i j * muDiff j

/-- The non-singular entry of `computePerDimensionEvidence` for dimension
index `i`: weight `|w_i|` normalized by `Σ|w|` (uniform `1/k` when that total
is not positive), contribution `w_i · (x_i − midpoint_i)`.  The source also
computes a `favors` local from the contribution's sign but does not store it
in the returned object. -/
noncomputable def ldaDimEntry (cl : LDAClassifier) (dims : List String)
    (point : Point) (invCov : Matrix (Fin dims.length) (Fin dims.length) ℝ)
    (i : Fin dims.length) : DimEvidence :=
  let w := ldaWeights cl dims invCov
  let totalAbsWeight : ℝ := ∑ j, |w j|
  let dim := dims.get i
  let value := pointVal point dim
  let m0 := cl.s0.mean dim
  let s0 := cl.s0.stddev dim
  let m1 := cl.s1.mean dim
  let s1 := cl.s1.stddev dim
  let midpoint := (m0 + m1) / 2
  let p0 := gaussianPdf value m0 s0
  let p1 := gaussianPdf value m1 s1
  let bf := univariateBayesFactor p0 p1
  { weight := if 0 < totalAbsWeight then |w i| / totalAbsWeight else 1 / (dims.length : ℝ)
    contribution := w i * (value - midpoint)
    bayesFactor := bf
    evidence := getEvidenceCategory bf
    z0 := zScore value m0 s0
    z1 := zScore value m1 s1 }

/-- `LDAClassifier.computePerDimensionEvidence(point)`. -/
noncomputable def computePerDimensionEvidence (cl : LDAClassifier) (point : Point) :
    List (String × DimEvidence) :=
  let dims := point.map Prod.fst
  let pooledCov := computePooledCovariance cl dims
  match invertMatrix pooledCov with
  | none => dims.map fun dim => (dim, univariateFallbackEntry cl dims.length point dim)
  | some invCov =>
    (List.finRange dims.length).map fun i =>
      (dims.get i, ldaDimEntry cl dims point invCov i)

/-- One entry of `classifyWithDetails().results`. -/
structure LDAResultEntry where
  label : String
  score : ℝ
  posterior : ℝ

/-- The full result of `LDAClassifier.classifyWithDetails`. -/
structure LDADetails where
  winner : LDAResultEntry
  results : List LDAResultEntry
  bayesFactor : ℝ
  evidence : Evidence
  perDimension : List (String × DimEvidence)
  mahalanobis : List (String × ℝ)

/-- `LDAClassifier.classifyWithDetails(point)`.  `computeDiscriminantScores`
always returns the two-element class list, so `Math.max(...)`, the softmax
sum and the winner fold are written out over the two entries (`scores[0]`,
`scores[1]`); the winner fold starts at `results[0]` and strict `>` replaces
it, so ties keep the first class.  In exact real arithmetic
`Math.exp(scoreDiff)` is always finite, so the `!isFinite` clamp of the
source is unreachable and `bayesFactor` is the exponential itself. -/
noncomputable def ldaClassifyWithDetails (cl : LDAClassifier) (point : Point) :
    LDADetails :=
  let scores := computeDiscriminantScores cl point
  let sc0 := scores.getD 0 ("", 0)
  let sc1 := scores.getD 1 ("", 0)
  let maxScore := max sc0.2 sc1.2
  let sumExp := Real.exp (sc0.2 - maxScore) + Real.exp (sc1.2 - maxScore)
  let r0 : LDAResultEntry := ⟨sc0.1, sc0.2, Real.exp (sc0.2 - maxScore) / sumExp⟩
  let r1 : LDAResultEntry := ⟨sc1.1, sc1.2, Real.exp (sc1.2 - maxScore) / sumExp⟩
  let results := [r0, r1]
  let winner := if r1.posterior > r0.posterior then r1 else r0
  let scoreDiff := sc0.2 - sc1.2
  let bayesFactor := Real.exp scoreDiff
  { winner := winner
    results := results
    bayesFactor := bayesFactor
    evidence := getEvidenceCategory bayesFactor
    perDimension := computePerDimensionEvidence cl point
    mahalanobis := computeMahalanobisDistances cl point }

/-! ## `plots/density-plot.js`: the density curves

`DensityPlot.drawDensityCurves` samples, for each series, the series'
parametric Gaussian `pdf("x")` at `sampleCount` evenly spaced positions
across the data bounds; the numeric sampling logic (everything except the
canvas stroking) is the function below. -/

/-- The `points` array built for one series inside `drawDensityCurves`:
`x = minX + t·(maxX−minX)` with `t = i/(sampleCount−1)`, `y = pdf(x)` where
`pdf` is `s.pdf("x")`. -/
noncomputable def densityCurvePoints (s : Series) (minX maxX : ℝ)
    (sampleCount : ℕ) : List (ℝ × ℝ) :=
  (List.range sampleCount).map fun i =>
    let t : ℝ := (i : ℝ) / ((sampleCount : ℝ) - 1)
    let x := minX + t * (maxX - minX)
    (x, s.pdf "x" x)

/-- Modelled from the spec: the claimed kernel-density estimator
`estimateDensity(samples, x, bandwidth) = (1/(n·h))·Σ K((x−xᵢ)/h)` with
Gaussian kernel `K(u) = exp(−u²/2)/√(2π)`.  No such routine exists anywhere
in the source tree; this definition follows the spec's words for comparison
against what `drawDensityCurves` actually computes. -/
noncomputable def estimateDensitySpec (samples : List ℝ) (x bandwidth : ℝ) : ℝ :=
  (1 / ((samples.length : ℝ) * bandwidth)) *
    (samples.map fun xi =>
      Real.exp (-(((x - xi) / bandwidth) ^ 2) / 2) / Real.sqrt (2 * Real.pi)).sum

/-- Modelled from the spec: Scott's Rule bandwidth `h = 1.06·σ·n^(−1/5)`
for the claimed kernel-density estimator (also absent from the source). -/
noncomputable def scottBandwidthSpec (samples : List ℝ) : ℝ :=
  1.06 * listStddev samples (listMean samples) *
    (samples.length : ℝ) ^ (-(1 / 5 : ℝ))

/-- Population covariance in the spec's `Σ(xᵢ−μx)(yᵢ−μy)/N` form (indexed
sum rather than the source's accumulator fold), for comparing
`computePooledCovariance`'s cells against the spec's description.  It is 0
unless the arrays have equal nonzero length, as the source guards. -/
noncomputable def popCovarianceSpec (x y : List ℝ) : ℝ :=
  if x.length = y.length ∧ x.length ≠ 0 then
    (∑ i ∈ Finset.range x.length,
      (x.getD i 0 - listMean x) * (y.getD i 0 - listMean y)) / x.length
  else 0

/-! ## Proof-side invariants for the Gauss-Jordan routine -/

/-- The row operations of `invertMatrix` act identically on both blocks of
`[L | R]`, so the relation `R · M = L` (true of the initial `[M | I]`) is
maintained throughout the elimination. -/
def augInv (M : Matrix (Fin n) (Fin n) α) (a : Aug n α) : Prop :=
  a.2 * M = a.1

/-- After the first `m` column steps, the first `m` columns of the left
block form the identity pattern in every row. -/
def colsDone (m : ℕ) (a : Aug n α) : Prop :=
  ∀ i j : Fin n, (j : ℕ) < m → a.1 i j = if i = j then 1 else 0

/-! ## Helper lemmas -/

/-- The JS `reduce((s, v) => s + f(v), a)` accumulation is `a` plus the sum
of the mapped list. -/
theorem foldl_add_map {β M : Type} [AddCommMonoid M] (f : β → M) :
    ∀ (l : List β) (a : M), l.foldl (fun s v => s + f v) a = a + (l.map f).sum
  | [], a => by simp
  | x :: l, a => by
    rw [List.foldl_cons, foldl_add_map f l (a + f x), List.map_cons, List.sum_cons,
      add_assoc]

/-- `listCovariance` is symmetric in its two column/mean pairs. -/
theorem listCovariance_comm (x y : List ℝ) (mx my : ℝ) :
    listCovariance x mx y my = listCovariance y my x mx := by
  unfold listCovariance
  by_cases hlen : x.length = y.length
  · by_cases hx0 : x.length = 0
    · rw [if_pos (Or.inr hx0), if_pos (Or.inr (hlen ▸ hx0))]
    · rw [if_neg (not_or.mpr ⟨fun h => h hlen, hx0⟩),
        if_neg (not_or.mpr ⟨fun h => h hlen.symm, fun h => hx0 (hlen.trans h)⟩)]
      rw [foldl_add_map, foldl_add_map, zero_add, zero_add, hlen]
      congr 1
      rw [← List.zip_swap y x, List.map_map]
      refine congrArg List.sum (List.map_congr_left fun (p : ℝ × ℝ) _ => ?_)
      show (p.2 - mx) * (p.1 - my) = (p.1 - my) * (p.2 - mx)
      exact mul_comm _ _
  · rw [if_pos (Or.inl hlen), if_pos (Or.inl fun h => hlen h.symm)]

/-! ## Claim theorems -/

theorem listStddev_nonneg (x : List ℝ) (mx : ℝ) : 0 ≤ listStddev x mx := by
  unfold listStddev
  split_ifs
  · exact le_refl 0
  · exact Real.sqrt_nonneg _

theorem Series.stddev_nonneg (s : Series) (d : String) : 0 ≤ s.stddev d :=
  listStddev_nonneg _ _

theorem gaussianPdf_nonneg (x mx sx : ℝ) (h : 0 ≤ sx) : 0 ≤ gaussianPdf x mx sx := by
  unfold gaussianPdf
  split_ifs with h0
  · exact le_refl 0
  · have hs : 0 < sx := lt_of_le_of_ne h (Ne.symm h0)
    have hsqrt : 0 < Real.sqrt (2 * Real.pi) :=
      Real.sqrt_pos.mpr (by positivity)
    positivity

/-- The per-class fold of `computeLogPosteriors` in closed form: if every
dimension's density is positive the result is the accumulator plus the sum
of the log densities, otherwise the fold short-circuits to `-Infinity`. -/
theorem nbLogPosterior_eq (s : Series) :
    ∀ (point : Point) (acc : ℝ),
      nbLogPosterior s acc point =
        if ∀ dv ∈ point, 0 < gaussianPdf dv.2 (s.mean dv.1) (s.stddev dv.1) then
          ((acc + (point.map fun dv =>
            Real.log (gaussianPdf dv.2 (s.mean dv.1) (s.stddev dv.1))).sum : ℝ) : EReal)
        else ⊥
  | [], acc => by simp [nbLogPosterior]
  | (d, v) :: rest, acc => by
    rw [nbLogPosterior]
    by_cases hp : 0 < gaussianPdf v (s.mean d) (s.stddev d)
    · rw [if_pos hp,
        nbLogPosterior_eq s rest (acc + Real.log (gaussianPdf v (s.mean d) (s.stddev d)))]
      simp only [List.forall_mem_cons, List.map_cons, List.sum_cons]
      by_cases hrest : ∀ dv ∈ rest, 0 < gaussianPdf dv.2 (s.mean dv.1) (s.stddev dv.1)
      · rw [if_pos hrest, if_pos ⟨hp, hrest⟩]
        exact congrArg _ (by ring)
      · rw [if_neg hrest, if_neg fun hall => hrest hall.2]
    · rw [if_neg hp]
      simp only [List.forall_mem_cons]
      rw [if_neg fun hall => hp hall.1]

/-! ## Gauss-Jordan lemmas -/

/-- The pivot scan returns its start or a scanned row, and its entry
magnitude dominates the start's and every scanned row's. -/
theorem pivot_fold_spec (a : Aug n α) (c : Fin n) :
    ∀ (L : List (Fin n)) (b0 : Fin n),
      (L.foldl (fun maxRow row =>
          if |a.1 row c| > |a.1 maxRow c| then row else maxRow) b0 = b0 ∨
        L.foldl (fun maxRow row =>
          if |a.1 row c| > |a.1 maxRow c| then row else maxRow) b0 ∈ L) ∧
      |a.1 b0 c| ≤
        |a.1 (L.foldl (fun maxRow row =>
          if |a.1 row c| > |a.1 maxRow c| then row else maxRow) b0) c| ∧
      ∀ x ∈ L, |a.1 x c| ≤
        |a.1 (L.foldl (fun maxRow row =>
          if |a.1 row c| > |a.1 maxRow c| then row else maxRow) b0) c|
  | [], b0 => ⟨Or.inl rfl, le_refl _, by simp⟩
  | r :: L, b0 => by
    rw [List.foldl_cons]
    by_cases hr : |a.1 r c| > |a.1 b0 c|
    · rw [if_pos hr]
      obtain ⟨hmem, hstart, hall⟩ := pivot_fold_spec a c L r
      refine ⟨Or.inr (hmem.elim (fun h => by rw [h]; exact List.mem_cons_self r L)
        (fun h => List.mem_cons_of_mem r h)), le_trans (le_of_lt hr) hstart, ?_⟩
      intro x hx
      rcases List.mem_cons.mp hx with h | h
      · rw [h]
        exact hstart
      · exact hall x h
    · rw [if_neg hr]
      obtain ⟨hmem, hstart, hall⟩ := pivot_fold_spec a c L b0
      refine ⟨hmem.elim Or.inl (fun h => Or.inr (List.mem_cons_of_mem r h)),
        hstart, ?_⟩
      intro x hx
      rcases List.mem_cons.mp hx with h | h
      · rw [h]
        exact le_trans (le_of_not_lt hr) hstart
      · exact hall x h

/-- The chosen pivot row never lies above the current column. -/
theorem pivotRow_ge (a : Aug n α) (c : Fin n) : c ≤ pivotRow a c := by
  unfold pivotRow
  obtain ⟨hmem, -, -⟩ := pivot_fold_spec a c ((List.finRange n).filter (fun r => c < r)) c
  rcases hmem with h | h
  · rw [h]
  · have hp := List.mem_filter.mp h
    exact le_of_lt (of_decide_eq_true hp.2)

/-- The chosen pivot has maximal magnitude among the candidate rows
(`row ≥ col`) of the current column. -/
theorem pivotRow_max (a : Aug n α) (c : Fin n) :
    ∀ r : Fin n, c ≤ r → |a.1 r c| ≤ |a.1 (pivotRow a c) c| := by
  intro r hr
  unfold pivotRow
  obtain ⟨-, hstart, hall⟩ :=
    pivot_fold_spec a c ((List.finRange n).filter (fun r => c < r)) c
  rcases eq_or_lt_of_le hr with h | h
  · rw [← h]
    exact hstart
  · exact hall r (List.mem_filter.mpr ⟨List.mem_finRange r, decide_eq_true h⟩)

theorem gjEps_pos : (0 : α) < gjEps := by
  rw [gjEps]
  positivity

/-- A column step fails exactly when every candidate entry (rows `≥ col`) of
the current column — hence in particular the maximal-magnitude pivot — lies
below the `1e-12` threshold. -/
theorem gjStep_eq_none_iff (a : Aug n α) (c : Fin n) :
    gjStep a c = none ↔ ∀ r : Fin n, c ≤ r → |a.1 r c| < gjEps := by
  have hswap : (swapAug a c (pivotRow a c)).1 c c = a.1 (pivotRow a c) c := by
    simp [swapAug, Matrix.submatrix_apply, Equiv.swap_apply_left]
  simp only [gjStep]
  constructor
  · intro h r hr
    by_cases hlt : |(swapAug a c (pivotRow a c)).1 c c| < gjEps
    · rw [hswap] at hlt
      exact lt_of_le_of_lt (pivotRow_max a c r hr) hlt
    · rw [if_neg hlt] at h
      exact Option.noConfusion h
  · intro h
    rw [if_pos]
    rw [hswap]
    exact h (pivotRow a c) (pivotRow_ge a c)

/-- Row swaps act on a product through the row index. -/
theorem submatrix_mul_left (A B : Matrix (Fin n) (Fin n) α) (σ : Equiv.Perm (Fin n)) :
    (A.submatrix σ id) * B = (A * B).submatrix σ id := by
  ext i j
  simp [Matrix.mul_apply, Matrix.submatrix_apply]

/-- Scaling a row before a product scales that row of the product. -/
theorem updateRow_div_mul (A B : Matrix (Fin n) (Fin n) α) (c : Fin n) (piv : α) :
    (A.updateRow c fun j => A c j / piv) * B =
      (A * B).updateRow c fun j => (A * B) c j / piv := by
  ext i j
  by_cases hi : i = c
  · subst hi
    simp only [Matrix.mul_apply, Matrix.updateRow_self]
    rw [Finset.sum_div]
    exact Finset.sum_congr rfl fun k _ => div_mul_eq_mul_div _ _ _
  · simp [Matrix.mul_apply, Matrix.updateRow_ne hi]

theorem augInv_swap (M : Matrix (Fin n) (Fin n) α) (a : Aug n α) (c p : Fin n)
    (h : augInv M a) : augInv M (swapAug a c p) := by
  unfold augInv swapAug
  rw [submatrix_mul_left, h]

theorem augInv_scale (M : Matrix (Fin n) (Fin n) α) (a : Aug n α) (c : Fin n)
    (piv : α) (h : augInv M a) : augInv M (scaleAug a c piv) := by
  unfold augInv scaleAug
  rw [updateRow_div_mul, h]

theorem augInv_elim (M : Matrix (Fin n) (Fin n) α) (a : Aug n α) (c : Fin n)
    (h : augInv M a) : augInv M (elimAug a c) := by
  have happ : ∀ r j, (a.2 * M) r j = a.1 r j := fun r j => by rw [h]
  unfold augInv elimAug
  ext r j
  rw [Matrix.mul_apply]
  by_cases hr : r = c
  · simp only [Matrix.of_apply, if_pos hr]
    rw [← happ r j, Matrix.mul_apply]
  · simp only [Matrix.of_apply, if_neg hr]
    have : ∀ k, (a.2 r k - a.1 r c * a.2 c k) * M k j =
        a.2 r k * M k j - a.1 r c * (a.2 c k * M k j) := fun k => by ring
    rw [Finset.sum_congr rfl fun k _ => this k, Finset.sum_sub_distrib,
      ← Finset.mul_sum, ← Matrix.mul_apply, ← Matrix.mul_apply, happ, happ]

theorem gjStep_some_augInv {M : Matrix (Fin n) (Fin n) α} {a a' : Aug n α}
    {c : Fin n} (h : augInv M a) (hs : gjStep a c = some a') : augInv M a' := by
  simp only [gjStep] at hs
  split_ifs at hs with hlt
  injection hs with hs
  rw [← hs]
  exact augInv_elim M _ c (augInv_scale M _ c _ (augInv_swap M a c _ h))

/-- Swapping rows `col` and `maxRow` (both `≥ col`) preserves the completed
identity columns: those rows agree (entry 0) on every completed column. -/
theorem colsDone_swap {a : Aug n α} {c p : Fin n} (hcp : c ≤ p)
    (h : colsDone c.1 a) : colsDone c.1 (swapAug a c p) := by
  intro i j hj
  have hjc : j ≠ c := fun hh => absurd hj (by rw [hh]; exact lt_irrefl _)
  have hjp : j ≠ p := fun hh =>
    absurd hj (by rw [hh]; exact not_lt.mpr hcp)
  show a.1 (Equiv.swap c p i) j = _
  rw [h (Equiv.swap c p i) j hj]
  have hiff : Equiv.swap c p i = j ↔ i = j := by
    constructor
    · intro hh
      exact (Equiv.swap c p).injective
        (by rw [hh, Equiv.swap_apply_of_ne_of_ne hjc hjp])
    · intro hh
      rw [hh]
      exact Equiv.swap_apply_of_ne_of_ne hjc hjp
  rw [if_congr hiff rfl rfl]

/-- Scaling the pivot row preserves the completed identity columns (its
entries there are 0). -/
theorem colsDone_scale {a : Aug n α} {c : Fin n} {piv : α}
    (h : colsDone c.1 a) : colsDone c.1 (scaleAug a c piv) := by
  intro i j hj
  show a.1.updateRow c (fun j' => a.1 c j' / piv) i j = _
  by_cases hic : i = c
  · have hccj : ¬(c = j) := fun hh =>
      absurd hj (by rw [← hh]; exact lt_irrefl _)
    rw [hic, Matrix.updateRow_self]
    have : a.1 c j = 0 := by rw [h c j hj, if_neg hccj]
    rw [this, zero_div, if_neg hccj]
  · rw [Matrix.updateRow_ne hic]
    exact h i j hj

/-- A successful column step extends the completed identity columns by the
current column: the scaled pivot makes the diagonal 1 and the elimination
zeroes the rest of the column without touching completed columns. -/
theorem gjStep_some_colsDone {a a' : Aug n α} {c : Fin n}
    (h : colsDone c.1 a) (hs : gjStep a c = some a') : colsDone (c.1 + 1) a' := by
  simp only [gjStep] at hs
  split_ifs at hs with hlt
  injection hs with hs
  have hpivne : (swapAug a c (pivotRow a c)).1 c c ≠ 0 := by
    intro hz
    rw [hz, abs_zero] at hlt
    exact hlt gjEps_pos
  have h2 : colsDone c.1 (scaleAug (swapAug a c (pivotRow a c)) c
      ((swapAug a c (pivotRow a c)).1 c c)) :=
    colsDone_scale (colsDone_swap (pivotRow_ge a c) h)
  have h2cc : (scaleAug (swapAug a c (pivotRow a c)) c
      ((swapAug a c (pivotRow a c)).1 c c)).1 c c = 1 := by
    show (swapAug a c (pivotRow a c)).1.updateRow c _ c c = 1
    rw [Matrix.updateRow_self]
    exact div_self hpivne
  rw [← hs]
  intro i j hj
  rcases Nat.lt_succ_iff_lt_or_eq.mp hj with hj' | hj'
  · have hcj0 : (scaleAug (swapAug a c (pivotRow a c)) c
        ((swapAug a c (pivotRow a c)).1 c c)).1 c j = 0 := by
      rw [h2 c j hj',
        if_neg (fun hh : c = j => absurd hj' (by rw [← hh]; exact lt_irrefl _))]
    by_cases hic : i = c
    · show (if i = c then _ else _) = _
      rw [if_pos hic, hic]
      exact h2 c j hj'
    · show (if i = c then _ else _) = _
      rw [if_neg hic, hcj0, mul_zero, sub_zero]
      exact h2 i j hj'
  · have hjc : j = c := Fin.ext hj'
    by_cases hic : i = c
    · show (if i = c then _ else _) = _
      rw [if_pos hic, hic, hjc, h2cc, if_pos rfl]
    · show (if i = c then _ else _) = _
      rw [if_neg hic, hjc, h2cc, mul_one, sub_self,
        if_neg (fun hh : i = c => hic hh)]

/-- Running the column steps over the remaining suffix of `finRange n`:
on success the left block is fully the identity pattern and the block
relation `R · M = L` still holds. -/
theorem gj_run_spec (M : Matrix (Fin n) (Fin n) α) :
    ∀ (cs : List (Fin n)) (c0 : ℕ), cs = (List.finRange n).drop c0 →
      ∀ (a a' : Aug n α), colsDone c0 a → augInv M a →
        cs.foldlM gjStep a = some a' → colsDone n a' ∧ augInv M a'
  | [], c0, hcs, a, a', hcols, hinv, hrun => by
    have hle : n ≤ c0 := by
      have h' := hcs.symm
      rw [List.drop_eq_nil_iff, List.length_finRange] at h'
      exact h'
    rw [List.foldlM_nil] at hrun
    injection hrun with hrun
    rw [← hrun]
    exact ⟨fun i j _ => hcols i j (lt_of_lt_of_le j.isLt hle), hinv⟩
  | hd :: tl, c0, hcs, a, a', hcols, hinv, hrun => by
    have hc0 : c0 < n := by
      by_contra hge
      rw [List.drop_eq_nil_of_le
        (by rw [List.length_finRange]; exact not_lt.mp hge)] at hcs
      exact List.noConfusion hcs
    have hlen : c0 < (List.finRange n).length := by
      rw [List.length_finRange]
      exact hc0
    rw [List.drop_eq_getElem_cons hlen] at hcs
    injection hcs with h1 h2
    have hhd : (hd : ℕ) = c0 := by
      rw [h1, List.getElem_finRange]
      rfl
    rw [List.foldlM_cons] at hrun
    cases hstep : gjStep a hd with
    | none =>
      rw [hstep] at hrun
      exact Option.noConfusion hrun
    | some a1 =>
      rw [hstep] at hrun
      simp only [Option.bind_eq_bind, Option.some_bind] at hrun
      have hcols0 : colsDone (hd : ℕ) a := by rwa [hhd]
      have hcols1 : colsDone (c0 + 1) a1 := by
        have hc1 := gjStep_some_colsDone hcols0 hstep
        rwa [hhd] at hc1
      have hinv1 : augInv M a1 := gjStep_some_augInv hinv hstep
      exact gj_run_spec M tl (c0 + 1) h2 a1 a' hcols1 hinv1 hrun

/-- C10: whenever `invertMatrix` returns a non-null matrix `R` for a square
input `M`, the product `M * R` is the identity under exact arithmetic — the
result really is an inverse of the input, not merely a matrix of the right
shape.  (Each row operation preserves `R·M = L` for the two blocks of the
augmented system, and on success the left block is exactly the identity, so
`R·M = 1`, hence `M·R = 1`.) -/
theorem invertMatrix_correct {α : Type} [LinearOrderedField α] {n : ℕ}
    (M R : Matrix (Fin n) (Fin n) α) (h : invertMatrix M = some R) :
    M * R = 1 := by
  unfold invertMatrix at h
  rcases Option.map_eq_some'.mp h with ⟨a', hrun, hsnd⟩
  obtain ⟨hcols, hinv⟩ := gj_run_spec M (List.finRange n) 0
    (by rw [List.drop_zero]) (M, 1) a'
    (fun i j hj => absurd hj (Nat.not_lt_zero _))
    (by show (1 : Matrix (Fin n) (Fin n) α) * M = M; exact Matrix.one_mul M) hrun
  have hL : a'.1 = 1 := by
    ext i j
    rw [hcols i j j.isLt, Matrix.one_apply]
  have hinv' : a'.2 * M = a'.1 := hinv
  rw [hL] at hinv'
  rw [← hsnd]
  exact Matrix.mul_eq_one_comm.mp hinv'

/-- C10 witness: a concrete run of `invertMatrix` over `ℚ` on the 1×1 matrix
`[[2]]` returns `[[1/2]]`, and the theorem yields `[[2]]·[[1/2]] = 1`. -/
theorem invertMatrix_correct_witness :
    (Matrix.of fun _ _ : Fin 1 => (2 : ℚ)) *
      (Matrix.of fun _ _ : Fin 1 => (1 / 2 : ℚ)) = 1 := by
  have hfr : List.finRange 1 = [0] := rfl
  have hpiv : pivotRow ((Matrix.of fun _ _ : Fin 1 => (2 : ℚ)), 1) 0 = 0 := rfl
  have hstep : gjStep ((Matrix.of fun _ _ : Fin 1 => (2 : ℚ)), 1) 0 =
      some (elimAug (scaleAug ((Matrix.of fun _ _ : Fin 1 => (2 : ℚ)), 1) 0 2) 0) := by
    simp only [gjStep, hpiv, Equiv.swap_self, swapAug, Equiv.coe_refl,
      Matrix.submatrix_id_id, Matrix.of_apply]
    rw [if_neg (by norm_num [gjEps])]
  refine invertMatrix_correct _ _ ?_
  rw [invertMatrix, hfr, List.foldlM_cons, hstep]
  simp only [Option.bind_eq_bind, Option.some_bind, List.foldlM_nil]
  show some (Prod.snd _) = _
  refine congrArg some ?_
  ext i j
  simp [elimAug, scaleAug, Matrix.updateRow_self, Fin.eq_zero i, Fin.eq_zero j]

/-- An `Option`-valued left fold fails exactly when some step fails after a
successful prefix. -/
theorem foldlM_option_eq_none_iff {β σ : Type} (f : σ → β → Option σ) :
    ∀ (l : List β) (a : σ),
      l.foldlM f a = none ↔
        ∃ (i : ℕ) (h : i < l.length) (b : σ),
          (l.take i).foldlM f a = some b ∧ f b (l.get ⟨i, h⟩) = none
  | [], a => by simp
  | x :: l, a => by
    rw [List.foldlM_cons]
    cases hfa : f a x with
    | none =>
      simp only [Option.bind_eq_bind, Option.none_bind]
      constructor
      · intro _
        exact ⟨0, Nat.succ_pos _, a, by simp, by simpa using hfa⟩
      · intro _
        trivial
    | some b =>
      simp only [Option.bind_eq_bind, Option.some_bind]
      rw [foldlM_option_eq_none_iff f l b]
      constructor
      · rintro ⟨i, hi, c, htake, hstep⟩
        refine ⟨i + 1, Nat.succ_lt_succ hi, c, ?_, by simpa using hstep⟩
        rw [List.take_succ_cons, List.foldlM_cons, hfa, Option.bind_eq_bind,
          Option.some_bind]
        exact htake
      · rintro ⟨i, hi, c, htake, hstep⟩
        cases i with
        | zero =>
          rw [List.take_zero, List.foldlM_nil] at htake
          injection htake with htake
          rw [← htake] at hstep
          simp only [List.get] at hstep
          rw [hfa] at hstep
          exact Option.noConfusion hstep
        | succ i =>
          refine ⟨i, Nat.lt_of_succ_lt_succ hi, c, ?_, by simpa using hstep⟩
          rw [List.take_succ_cons, List.foldlM_cons, hfa, Option.bind_eq_bind,
            Option.some_bind] at htake
          exact htake

/-- `invertMatrix` returns `null` exactly when a pivot's magnitude falls
below `1e-12` during the elimination. -/
theorem invertMatrix_eq_none_iff (M : Matrix (Fin n) (Fin n) α) :
    invertMatrix M = none ↔ SmallPivotOccurs M := by
  unfold invertMatrix SmallPivotOccurs
  rw [Option.map_eq_none', foldlM_option_eq_none_iff]
  constructor
  · rintro ⟨i, hi, b, htake, hstep⟩
    have hi' : i < n := by simpa using hi
    have hget : (List.finRange n).get ⟨i, hi⟩ = ⟨i, hi'⟩ := List.get_finRange _
    rw [hget] at hstep
    exact ⟨⟨i, hi'⟩, b, htake, (gjStep_eq_none_iff b ⟨i, hi'⟩).mp hstep⟩
  · rintro ⟨c, b, htake, hall⟩
    have hlen : (c : ℕ) < (List.finRange n).length := by simpa using c.isLt
    refine ⟨c.1, hlen, b, htake, ?_⟩
    have hget : (List.finRange n).get ⟨c.1, hlen⟩ = c := by
      rw [List.get_finRange]
    rw [hget]
    exact (gjStep_eq_none_iff b c).mpr hall

/-- C1: (i) for every square matrix, `invertMatrix` returns `null` exactly
when, during the Gauss-Jordan elimination with partial pivoting, some
pivot's magnitude falls below `1e-12` (`SmallPivotOccurs`: at some column
every candidate row's entry — hence the maximal-magnitude pivot — is below
threshold); (ii) for every query point whose pooled covariance is singular
(`invertMatrix` returns `null`), `computeDiscriminantScores`,
`computeMahalanobisDistances` and `computePerDimensionEvidence` all return
their well-formed diagonal/univariate fallback results: the scores are the
two labelled entries computed from the diagonal inverse, the distances are
the two labelled nonnegative standardized-Euclidean distances, and the
per-dimension evidence lists one univariate entry of uniform weight `1/k`
per point dimension.  All three are total functions — no error is thrown. -/
theorem invertMatrix_null_and_singular_fallbacks :
    (∀ {α : Type} [inst : LinearOrderedField α] {n : ℕ}
        (M : Matrix (Fin n) (Fin n) α),
      invertMatrix M = none ↔ SmallPivotOccurs M) ∧
    (∀ (cl : LDAClassifier) (point : Point),
      invertMatrix (computePooledCovariance cl (point.map Prod.fst)) = none →
      computeDiscriminantScores cl point =
          ldaScoresWithInverse cl (point.map Prod.fst) point
            (diagInvOf (computePooledCovariance cl (point.map Prod.fst))) ∧
      (computeDiscriminantScores cl point).map Prod.fst = [cl.label0, cl.label1] ∧
      computeMahalanobisDistances cl point =
          [(cl.label0, standardizedEuclidean cl.s0 (point.map Prod.fst) point),
           (cl.label1, standardizedEuclidean cl.s1 (point.map Prod.fst) point)] ∧
      (∀ e ∈ computeMahalanobisDistances cl point, 0 ≤ e.2) ∧
      computePerDimensionEvidence cl point =
          (point.map Prod.fst).map (fun dim =>
            (dim, univariateFallbackEntry cl (point.map Prod.fst).length point dim)) ∧
      (∀ e ∈ computePerDimensionEvidence cl point,
        e.2.weight = 1 / (point.length : ℝ))) := by
  refine ⟨fun M => invertMatrix_eq_none_iff M, fun cl point h => ?_⟩
  have hscores : computeDiscriminantScores cl point =
      ldaScoresWithInverse cl (point.map Prod.fst) point
        (diagInvOf (computePooledCovariance cl (point.map Prod.fst))) := by
    simp only [computeDiscriminantScores]
    rw [h]
  have hmahal : computeMahalanobisDistances cl point =
      [(cl.label0, standardizedEuclidean cl.s0 (point.map Prod.fst) point),
       (cl.label1, standardizedEuclidean cl.s1 (point.map Prod.fst) point)] := by
    simp only [computeMahalanobisDistances]
    rw [h]
  have hperdim : computePerDimensionEvidence cl point =
      (point.map Prod.fst).map (fun dim =>
        (dim, univariateFallbackEntry cl (point.map Prod.fst).length point dim)) := by
    simp only [computePerDimensionEvidence]
    rw [h]
  refine ⟨hscores, ?_, hmahal, ?_, hperdim, ?_⟩
  · rw [hscores]
    rfl
  · intro e he
    rw [hmahal] at he
    rcases List.mem_cons.mp he with he | he
    · rw [he]
      exact Real.sqrt_nonneg _
    rcases List.mem_cons.mp he with he | he
    · rw [he]
      exact Real.sqrt_nonneg _
    · exact absurd he (List.not_mem_nil e)
  · intro e he
    rw [hperdim] at he
    rcases List.mem_map.mp he with ⟨dim, -, hdim⟩
    rw [← hdim]
    show (1 : ℝ) / ((point.map Prod.fst).length : ℝ) = _
    rw [List.length_map]

/-- C1 witness: two one-dimensional classes with empty sample arrays give a
singular (zero) 1×1 pooled covariance; the discriminant scores then come
from the diagonal fallback and carry the two class labels. -/
theorem invertMatrix_null_and_singular_fallbacks_witness :
    (computeDiscriminantScores
        ⟨⟨[("x", [])]⟩, ⟨[("x", [])]⟩, "Male", "Female", 1 / 2, 1 / 2⟩
        [("x", (0 : ℝ))]).map Prod.fst = ["Male", "Female"] := by
  have hval : ∀ d, (Series.mk [("x", ([] : List ℝ))]).valuesOf d = [] := by
    intro d
    unfold Series.valuesOf
    cases hbeq : (d == "x") with
    | true => simp [List.lookup, hbeq]
    | false => simp [List.lookup, hbeq]
  have hcov : ∀ d1 d2, (Series.mk [("x", ([] : List ℝ))]).covariance d1 d2 = 0 := by
    intro d1 d2
    unfold Series.covariance
    rw [hval, hval]
    unfold listCovariance
    simp
  have hpool : computePooledCovariance
      ⟨⟨[("x", [])]⟩, ⟨[("x", [])]⟩, "Male", "Female", 1 / 2, 1 / 2⟩
      (List.map Prod.fst [("x", (0 : ℝ))]) = Matrix.of fun _ _ => (0 : ℝ) := by
    ext i j
    simp only [computePooledCovariance, Matrix.of_apply, hval, hcov, List.length_nil]
    norm_num
  have hsing : invertMatrix (computePooledCovariance
      ⟨⟨[("x", [])]⟩, ⟨[("x", [])]⟩, "Male", "Female", 1 / 2, 1 / 2⟩
      (List.map Prod.fst [("x", (0 : ℝ))])) = none := by
    rw [hpool]
    show invertMatrix (Matrix.of fun _ _ : Fin 1 => (0 : ℝ)) = none
    have hfr : List.finRange 1 = [0] := rfl
    have hpiv : pivotRow ((Matrix.of fun _ _ : Fin 1 => (0 : ℝ)), 1) 0 = 0 := rfl
    have hstep : gjStep ((Matrix.of fun _ _ : Fin 1 => (0 : ℝ)), 1) 0 = none := by
      simp only [gjStep, hpiv, Equiv.swap_self, swapAug, Equiv.coe_refl,
        Matrix.submatrix_id_id, Matrix.of_apply]
      rw [if_pos (by norm_num [gjEps])]
    rw [invertMatrix, hfr, List.foldlM_cons, hstep]
    rfl
  exact (invertMatrix_null_and_singular_fallbacks.2 _ _ hsing).2.1

open Classical in
/-- C2: for every query point and class `i`, `computeLogPosteriors` returns
for class `i` the label paired with `log(prior_i)` plus the sum over the
point's dimensions of `log(gaussianPdf(point[dim], mean_i, stddev_i))`,
except that when some dimension's density for class `i` is exactly 0 the
entry is `-Infinity` (the fold short-circuits past the remaining
dimensions); the function is total, so no error is raised for any class. -/
theorem computeLogPosteriors_spec (cl : BayesianClassifier) (point : Point) :
    computeLogPosteriors cl point =
      (List.range cl.seriesList.length).map fun i =>
        ((cl.labels.getD i ""),
          if ∃ dv ∈ point,
              gaussianPdf dv.2 ((cl.seriesList.getD i ⟨[]⟩).mean dv.1)
                ((cl.seriesList.getD i ⟨[]⟩).stddev dv.1) = 0 then
            (⊥ : EReal)
          else
            ((Real.log (cl.priors.getD i 0) +
              (point.map fun dv =>
                Real.log (gaussianPdf dv.2 ((cl.seriesList.getD i ⟨[]⟩).mean dv.1)
                  ((cl.seriesList.getD i ⟨[]⟩).stddev dv.1))).sum : ℝ) : EReal)) := by
  unfold computeLogPosteriors
  refine List.map_congr_left fun i _ => ?_
  refine congrArg (Prod.mk (cl.labels.getD i "")) ?_
  rw [nbLogPosterior_eq]
  by_cases hall : ∀ dv ∈ point,
      0 < gaussianPdf dv.2 ((cl.seriesList.getD i ⟨[]⟩).mean dv.1)
        ((cl.seriesList.getD i ⟨[]⟩).stddev dv.1)
  · rw [if_pos hall, if_neg]
    push_neg
    intro dv hdv
    exact ne_of_gt (hall dv hdv)
  · rw [if_neg hall, if_pos]
    push_neg at hall
    obtain ⟨dv, hdv, hle⟩ := hall
    exact ⟨dv, hdv, le_antisymm hle
      (gaussianPdf_nonneg _ _ _ (Series.stddev_nonneg (cl.seriesList.getD i ⟨[]⟩) dv.1))⟩

/-- Mean of the counterexample sample (16 zeros and 16 twos). -/
theorem kde_sample_mean :
    listMean (List.replicate 16 (0 : ℝ) ++ List.replicate 16 2) = 1 := by
  unfold listMean
  rw [if_neg (by simp)]
  rw [← List.sum_eq_foldl, List.sum_append, List.sum_replicate, List.sum_replicate]
  norm_num

/-- Standard deviation of the counterexample sample about its mean 1. -/
theorem kde_sample_stddev :
    listStddev (List.replicate 16 (0 : ℝ) ++ List.replicate 16 2) 1 = 1 := by
  unfold listStddev
  rw [if_neg (by simp)]
  rw [foldl_add_map, List.map_append, List.map_replicate, List.map_replicate,
    List.sum_append, List.sum_replicate, List.sum_replicate]
  norm_num

/-- Scott's-Rule bandwidth of the counterexample sample is exactly `0.53`
(since `32^(−1/5) = 1/2`). -/
theorem kde_sample_bandwidth :
    scottBandwidthSpec (List.replicate 16 (0 : ℝ) ++ List.replicate 16 2) =
      53 / 100 := by
  unfold scottBandwidthSpec
  rw [kde_sample_mean, kde_sample_stddev]
  have hlen : ((List.replicate 16 (0 : ℝ) ++ List.replicate 16 2).length : ℝ) = 32 := by
    simp
  rw [hlen]
  have h32 : (32 : ℝ) = (2 : ℝ) ^ (5 : ℕ) := by norm_num
  rw [h32, ← Real.rpow_natCast 2 5, ← Real.rpow_mul (by norm_num : (0 : ℝ) ≤ 2)]
  have : ((5 : ℕ) : ℝ) * (-(1 / 5)) = -1 := by norm_num
  rw [this, Real.rpow_neg_one]
  norm_num

/-- The spec's KDE evaluated on the counterexample sample at `x = 1` with
the Scott bandwidth `0.53`. -/
theorem kde_sample_estimate :
    estimateDensitySpec (List.replicate 16 (0 : ℝ) ++ List.replicate 16 2) 1
        (53 / 100) =
      (100 / 53) * (Real.exp (-(5000 / 2809)) / Real.sqrt (2 * Real.pi)) := by
  unfold estimateDensitySpec
  rw [List.map_append, List.map_replicate, List.map_replicate, List.sum_append,
    List.sum_replicate, List.sum_replicate]
  have h0 : Real.exp (-(((1 - (0 : ℝ)) / (53 / 100)) ^ 2) / 2) / Real.sqrt (2 * Real.pi) =
      Real.exp (-(5000 / 2809)) / Real.sqrt (2 * Real.pi) := by
    norm_num
  have h2 : Real.exp (-(((1 - (2 : ℝ)) / (53 / 100)) ^ 2) / 2) / Real.sqrt (2 * Real.pi) =
      Real.exp (-(5000 / 2809)) / Real.sqrt (2 * Real.pi) := by
    norm_num
  rw [h0, h2]
  have hlen : ((List.replicate 16 (0 : ℝ) ++ List.replicate 16 2).length : ℝ) = 32 := by
    simp
  rw [hlen]
  push_cast
  ring

/-- C8 (counterexample): on the 32-point sample of 16 zeros and 16 twos the
density-plot curve value at the middle sample position `x = 1` (the
parametric Gaussian `pdf` the source actually evaluates, `1/√(2π)`) differs
from the spec's claimed kernel-density estimate with Scott's-Rule bandwidth
(`(100/53)·e^(−5000/2809)/√(2π) ≈ 0.318/√(2π)·√(2π)`), so the curves are
not computed from the claimed estimator. -/
theorem densityCurve_ne_kde_at_sample :
    ((densityCurvePoints ⟨[("x", List.replicate 16 (0 : ℝ) ++ List.replicate 16 2)]⟩
        0 2 3).getD 1 (0, 0)).2 ≠
      estimateDensitySpec (List.replicate 16 (0 : ℝ) ++ List.replicate 16 2) 1
        (scottBandwidthSpec (List.replicate 16 (0 : ℝ) ++ List.replicate 16 2)) := by
  have hval : (Series.mk [("x", List.replicate 16 (0 : ℝ) ++ List.replicate 16 2)]).valuesOf
      "x" = List.replicate 16 (0 : ℝ) ++ List.replicate 16 2 := by
    simp [Series.valuesOf, List.lookup]
  have hmean : (Series.mk [("x", List.replicate 16 (0 : ℝ) ++ List.replicate 16 2)]).mean
      "x" = 1 := by
    unfold Series.mean
    rw [hval]
    exact kde_sample_mean
  have hstd : (Series.mk [("x", List.replicate 16 (0 : ℝ) ++ List.replicate 16 2)]).stddev
      "x" = 1 := by
    unfold Series.stddev
    rw [hval, hmean]
    exact kde_sample_stddev
  have hx : (0 : ℝ) + ((1 : ℕ) : ℝ) / ((3 : ℕ) - 1) * (2 - 0) = 1 := by norm_num
  have hlhs : ((densityCurvePoints
      ⟨[("x", List.replicate 16 (0 : ℝ) ++ List.replicate 16 2)]⟩
      0 2 3).getD 1 (0, 0)).2 = (Real.sqrt (2 * Real.pi))⁻¹ := by
    show (Series.pdf _ "x") ((0 : ℝ) + ((1 : ℕ) : ℝ) / (((3 : ℕ) : ℝ) - 1) * (2 - 0)) = _
    unfold Series.pdf
    rw [hmean, hstd]
    have hx' : (0 : ℝ) + ((1 : ℕ) : ℝ) / (((3 : ℕ) : ℝ) - 1) * (2 - 0) = 1 := by
      norm_num
    rw [hx']
    unfold gaussianPdf
    rw [if_neg one_ne_zero]
    norm_num [Real.exp_zero]
  rw [hlhs, kde_sample_bandwidth, kde_sample_estimate]
  have hsqrt : 0 < Real.sqrt (2 * Real.pi) :=
    Real.sqrt_pos.mpr (by positivity)
  have hexp : (100 / 53 : ℝ) * Real.exp (-(5000 / 2809)) < 1 := by
    rw [Real.exp_neg, ← div_eq_mul_inv, div_lt_one (Real.exp_pos _)]
    have hle := Real.add_one_le_exp (5000 / 2809 : ℝ)
    have : (100 / 53 : ℝ) < 5000 / 2809 + 1 := by norm_num
    linarith
  have hlt : (100 / 53 : ℝ) * (Real.exp (-(5000 / 2809)) / Real.sqrt (2 * Real.pi)) <
      (Real.sqrt (2 * Real.pi))⁻¹ := by
    rw [div_eq_mul_inv (Real.exp (-(5000 / 2809))) (Real.sqrt (2 * Real.pi)),
      ← mul_assoc]
    calc (100 / 53 * Real.exp (-(5000 / 2809)) : ℝ) * (Real.sqrt (2 * Real.pi))⁻¹ <
        1 * (Real.sqrt (2 * Real.pi))⁻¹ :=
          mul_lt_mul_of_pos_right hexp (inv_pos.mpr hsqrt)
      _ = (Real.sqrt (2 * Real.pi))⁻¹ := one_mul _
  exact ne_of_gt hlt

/-- C8 (amended): the density-plot curves are not kernel-density estimates;
`drawDensityCurves` samples, at each of the `sampleCount` evenly spaced
positions across the data bounds, the series' parametric Gaussian `pdf`
(`gaussianPdf` at the `"x"` dimension's own mean and population standard
deviation).  No `estimateDensity` or Scott's-Rule bandwidth exists anywhere
in the source. -/
theorem densityCurvePoints_are_parametric_gaussian (s : Series) (minX maxX : ℝ)
    (sampleCount : ℕ) :
    densityCurvePoints s minX maxX sampleCount =
      (List.range sampleCount).map fun i =>
        (minX + ((i : ℝ) / ((sampleCount : ℝ) - 1)) * (maxX - minX),
          gaussianPdf (minX + ((i : ℝ) / ((sampleCount : ℝ) - 1)) * (maxX - minX))
            (s.mean "x") (s.stddev "x")) := rfl

/-- C5: for every `Series` and all dimension names `a`, `b`,
`covariance(a, b) = covariance(b, a)` and `correlation(a, b) =
correlation(b, a)` exactly, under exact real arithmetic, even though the
source computes and memoizes each ordered pair under its own ordered cache
key (the caches are value-transparent, so they do not affect the results). -/
theorem covariance_correlation_symm (s : Series) (a b : String) :
    s.covariance a b = s.covariance b a ∧ s.correlation a b = s.correlation b a := by
  have hcov : s.covariance a b = s.covariance b a := listCovariance_comm _ _ _ _
  refine ⟨hcov, ?_⟩
  unfold Series.correlation
  by_cases h : 0 < s.stddev a ∧ 0 < s.stddev b
  · rw [if_pos h, if_pos (And.comm.mp h), hcov, mul_comm]
  · rw [if_neg h, if_neg fun h' => h (And.comm.mp h')]

/-- C7: `getEvidenceCategory(bf)` favors `"first"` exactly when `bf ≥ 1`
(else `"second"`); with `a = (bf ≥ 1 ? bf : 1/bf)` — the JS quotient, so
`a = Infinity` (`⊤`) at `bf = 0` — the category is determined by the
inclusive lower bounds `100/30/10/3`; `bf = 1` yields `anecdotal` favoring
`"first"`, and `bf = 0` yields `extreme` favoring `"second"` (the
divide-by-zero path of the source).  The function is total (never fails). -/
theorem getEvidenceCategory_spec (bf : ℝ) :
    ((getEvidenceCategory bf).favors = "first" ↔ 1 ≤ bf) ∧
    ((getEvidenceCategory bf).favors = "second" ↔ ¬ 1 ≤ bf) ∧
    ((getEvidenceCategory bf).category = .extreme ↔
      ((100 : ℝ) : EReal) ≤ absBayesFactor bf) ∧
    ((getEvidenceCategory bf).category = .veryStrong ↔
      ((30 : ℝ) : EReal) ≤ absBayesFactor bf ∧
        absBayesFactor bf < ((100 : ℝ) : EReal)) ∧
    ((getEvidenceCategory bf).category = .strong ↔
      ((10 : ℝ) : EReal) ≤ absBayesFactor bf ∧
        absBayesFactor bf < ((30 : ℝ) : EReal)) ∧
    ((getEvidenceCategory bf).category = .moderate ↔
      ((3 : ℝ) : EReal) ≤ absBayesFactor bf ∧
        absBayesFactor bf < ((10 : ℝ) : EReal)) ∧
    ((getEvidenceCategory bf).category = .anecdotal ↔
      absBayesFactor bf < ((3 : ℝ) : EReal)) ∧
    getEvidenceCategory 1 = ⟨.anecdotal, "Anecdotal", "first"⟩ ∧
    getEvidenceCategory 0 = ⟨.extreme, "Extreme", "second"⟩ := by
  have c31 : ((3 : ℝ) : EReal) ≤ ((10 : ℝ) : EReal) :=
    EReal.coe_le_coe_iff.mpr (by norm_num)
  have c32 : ((10 : ℝ) : EReal) ≤ ((30 : ℝ) : EReal) :=
    EReal.coe_le_coe_iff.mpr (by norm_num)
  have c33 : ((30 : ℝ) : EReal) ≤ ((100 : ℝ) : EReal) :=
    EReal.coe_le_coe_iff.mpr (by norm_num)
  have hfav : (getEvidenceCategory bf).favors =
      if 1 ≤ bf then "first" else "second" := by
    simp only [getEvidenceCategory]
    split_ifs <;> rfl
  have hcat : (getEvidenceCategory bf).category =
      (if ((100 : ℝ) : EReal) ≤ absBayesFactor bf then EvidenceCategory.extreme
       else if ((30 : ℝ) : EReal) ≤ absBayesFactor bf then .veryStrong
       else if ((10 : ℝ) : EReal) ≤ absBayesFactor bf then .strong
       else if ((3 : ℝ) : EReal) ≤ absBayesFactor bf then .moderate
       else .anecdotal) := by
    simp only [getEvidenceCategory]
    split_ifs <;> rfl
  refine ⟨?_, ?_, ?_, ?_, ?_, ?_, ?_, ?_, ?_⟩
  · rw [hfav]
    split_ifs with h <;> simp [h]
  · rw [hfav]
    split_ifs with h <;> simp [h]
  · rw [hcat]
    split_ifs with h1 h2 h3 h4
    · exact iff_of_true rfl h1
    all_goals exact iff_of_false (by simp) h1
  · rw [hcat]
    split_ifs with h1 h2 h3 h4
    · refine iff_of_false (by simp) ?_
      rintro ⟨-, hlt⟩
      exact absurd h1 (not_le.mpr hlt)
    · exact iff_of_true rfl ⟨h2, not_le.mp h1⟩
    all_goals
      refine iff_of_false (by simp) ?_
      rintro ⟨hc, -⟩
      exact h2 hc
  · rw [hcat]
    split_ifs with h1 h2 h3 h4
    · refine iff_of_false (by simp) ?_
      rintro ⟨-, hlt⟩
      exact absurd (le_trans c33 h1) (not_le.mpr hlt)
    · refine iff_of_false (by simp) ?_
      rintro ⟨-, hlt⟩
      exact absurd h2 (not_le.mpr hlt)
    · exact iff_of_true rfl ⟨h3, not_le.mp h2⟩
    all_goals
      refine iff_of_false (by simp) ?_
      rintro ⟨hc, -⟩
      exact h3 hc
  · rw [hcat]
    split_ifs with h1 h2 h3 h4
    · refine iff_of_false (by simp) ?_
      rintro ⟨-, hlt⟩
      exact absurd (le_trans c32 (le_trans c33 h1)) (not_le.mpr hlt)
    · refine iff_of_false (by simp) ?_
      rintro ⟨-, hlt⟩
      exact absurd (le_trans c32 h2) (not_le.mpr hlt)
    · refine iff_of_false (by simp) ?_
      rintro ⟨-, hlt⟩
      exact absurd h3 (not_le.mpr hlt)
    · exact iff_of_true rfl ⟨h4, not_le.mp h3⟩
    · refine iff_of_false (by simp) ?_
      rintro ⟨hc, -⟩
      exact h4 hc
  · rw [hcat]
    split_ifs with h1 h2 h3 h4
    · refine iff_of_false (by simp) ?_
      intro hlt
      exact absurd (le_trans c31 (le_trans c32 (le_trans c33 h1))) (not_le.mpr hlt)
    · refine iff_of_false (by simp) ?_
      intro hlt
      exact absurd (le_trans c31 (le_trans c32 h2)) (not_le.mpr hlt)
    · refine iff_of_false (by simp) ?_
      intro hlt
      exact absurd (le_trans c31 h3) (not_le.mpr hlt)
    · refine iff_of_false (by simp) ?_
      intro hlt
      exact absurd h4 (not_le.mpr hlt)
    · exact iff_of_true rfl (not_le.mp h4)
  · have ha : absBayesFactor 1 = ((1 : ℝ) : EReal) := by
      unfold absBayesFactor
      rw [if_pos le_rfl]
    simp only [getEvidenceCategory, ha]
    rw [if_neg (fun hc => by
        rw [EReal.coe_le_coe_iff] at hc
        norm_num at hc),
      if_neg (fun hc => by
        rw [EReal.coe_le_coe_iff] at hc
        norm_num at hc),
      if_neg (fun hc => by
        rw [EReal.coe_le_coe_iff] at hc
        norm_num at hc),
      if_neg (fun hc => by
        rw [EReal.coe_le_coe_iff] at hc
        norm_num at hc),
      if_pos le_rfl]
  · have ha : absBayesFactor 0 = ⊤ := by
      unfold absBayesFactor
      rw [if_neg (by norm_num), if_pos rfl]
    simp only [getEvidenceCategory, ha]
    rw [if_pos le_top, if_neg (by norm_num : ¬(1 : ℝ) ≤ 0)]

/-- The zip-accumulator fold of `listCovariance` as an index sum. -/
theorem zip_map_sum_eq_range_sum (mx my : ℝ) :
    ∀ (x y : List ℝ), x.length = y.length →
      ((x.zip y).map fun p => (p.1 - mx) * (p.2 - my)).sum =
        ∑ i ∈ Finset.range x.length, (x.getD i 0 - mx) * (y.getD i 0 - my)
  | [], _, _ => by simp
  | a :: x, [], h => by simp at h
  | a :: x, b :: y, h => by
    have h' : x.length = y.length := by simpa using h
    simp only [List.zip_cons_cons, List.map_cons, List.sum_cons, List.length_cons,
      Finset.sum_range_succ', List.getD_cons_succ, List.getD_cons_zero]
    rw [zip_map_sum_eq_range_sum mx my x y h']
    exact add_comm _ _

/-- The source's covariance equals the spec's indexed population
covariance. -/
theorem listCovariance_eq_spec (x y : List ℝ) :
    listCovariance x (listMean x) y (listMean y) = popCovarianceSpec x y := by
  unfold listCovariance popCovarianceSpec
  by_cases h : x.length = y.length ∧ x.length ≠ 0
  · rw [if_neg (by rw [not_or]; exact ⟨fun hc => hc h.1, h.2⟩), if_pos h,
      foldl_add_map, zero_add, zip_map_sum_eq_range_sum _ _ x y h.1]
  · rw [if_pos ?_, if_neg h]
    rw [Classical.not_and_iff_or_not_not, Classical.not_not] at h
    exact h.imp id id

theorem Series.covariance_eq_spec (s : Series) (a b : String) :
    s.covariance a b = popCovarianceSpec (s.valuesOf a) (s.valuesOf b) :=
  listCovariance_eq_spec _ _

/-- C4: every cell `(i, j)` of `computePooledCovariance(dims)` is
`((n0−1)·cov0(dims[i],dims[j]) + (n1−1)·cov1(dims[i],dims[j])) / (n0+n1−2)`
with `n0`, `n1` the two classes' sample counts read from the first
dimension's arrays and `cov_c` class `c`'s population covariance.  The
denominator is applied unconditionally — the statement holds for all sample
counts, including `n0 + n1 ≤ 2` (the exact model evaluates the JS
division-by-zero at `n0 + n1 = 2` as `x / 0 = 0`). -/
theorem computePooledCovariance_cells (cl : LDAClassifier) (dims : List String)
    (i j : Fin dims.length) :
    computePooledCovariance cl dims i j =
      ((((cl.s0.valuesOf (dims.getD 0 "")).length : ℝ) - 1) *
          popCovarianceSpec (cl.s0.valuesOf (dims.get i)) (cl.s0.valuesOf (dims.get j)) +
        (((cl.s1.valuesOf (dims.getD 0 "")).length : ℝ) - 1) *
          popCovarianceSpec (cl.s1.valuesOf (dims.get i)) (cl.s1.valuesOf (dims.get j))) /
        (((cl.s0.valuesOf (dims.getD 0 "")).length : ℝ) +
          ((cl.s1.valuesOf (dims.getD 0 "")).length : ℝ) - 2) := by
  unfold computePooledCovariance
  rw [Matrix.of_apply, Series.covariance_eq_spec, Series.covariance_eq_spec]

open Classical in
/-- C3: `classifyWithDetails` converts the two discriminant scores to
posteriors by softmax (`exp(score−max)/Σexp(score−max)`); the two posteriors
sum to 1; the winner is the class with the larger posterior, ties going to
the first class (the `if` below replaces the first entry only on a strictly
larger posterior); and `bayesFactor` is `exp(score0 − score1)` — in exact
real arithmetic the exponential is always finite, so the source's
`!isFinite` clamp to `Infinity`/`0` (keyed on which score is larger) can
never fire and the equation below is the complete description. -/
theorem ldaClassifyWithDetails_spec (cl : LDAClassifier) (point : Point) :
    let sc0 := (computeDiscriminantScores cl point).getD 0 ("", 0)
    let sc1 := (computeDiscriminantScores cl point).getD 1 ("", 0)
    let m := max sc0.2 sc1.2
    let sumExp := Real.exp (sc0.2 - m) + Real.exp (sc1.2 - m)
    let p0 := Real.exp (sc0.2 - m) / sumExp
    let p1 := Real.exp (sc1.2 - m) / sumExp
    (ldaClassifyWithDetails cl point).results =
        [⟨sc0.1, sc0.2, p0⟩, ⟨sc1.1, sc1.2, p1⟩] ∧
    p0 + p1 = 1 ∧
    (ldaClassifyWithDetails cl point).winner =
        (if p1 > p0 then ⟨sc1.1, sc1.2, p1⟩ else ⟨sc0.1, sc0.2, p0⟩) ∧
    (ldaClassifyWithDetails cl point).bayesFactor = Real.exp (sc0.2 - sc1.2) := by
  intro sc0 sc1 m sumExp p0 p1
  have hsum : sumExp ≠ 0 := by positivity
  refine ⟨rfl, ?_, rfl, rfl⟩
  show Real.exp (sc0.2 - m) / sumExp + Real.exp (sc1.2 - m) / sumExp = 1
  rw [div_add_div_same, div_self hsum]

/-- C9 (counterexample): constructing a `BayesianClassifier` from three
series without explicit labels yields a labels array of length 2, not 3 —
`DEFAULT_LABELS.slice(0, 3)` only truncates, it never extends. -/
theorem mkBayesianClassifier_three_series_labels_short :
    (mkBayesianClassifier [⟨[]⟩, ⟨[]⟩, ⟨[]⟩] none).labels.length ≠ 3 := by
  simp [mkBayesianClassifier, DEFAULT_LABELS]

/-- C9 (amended): without explicit labels the default `["Male", "Female"]`
is truncated to the series count — the labels array has length
`min 2 k` (equal to `k` only when `k ≤ 2`) — and the priors default to the
uniform vector with every entry `1/k`. -/
theorem mkBayesianClassifier_defaults (seriesList : List Series) :
    (mkBayesianClassifier seriesList none).labels =
        DEFAULT_LABELS.take seriesList.length ∧
    (mkBayesianClassifier seriesList none).labels.length =
        min 2 seriesList.length ∧
    (mkBayesianClassifier seriesList none).priors =
        List.replicate seriesList.length (1 / (seriesList.length : ℝ)) := by
  refine ⟨rfl, ?_, ?_⟩
  · show (DEFAULT_LABELS.take seriesList.length).length = _
    rw [List.length_take, DEFAULT_LABELS]
    simp [Nat.min_comm]
  · show seriesList.map _ = _
    rw [List.map_const']

/-- C6: `Series` total-safety: `valuesOf` of an unknown dimension is the
empty sequence; `mean` and `stddev` of an empty dimension are 0;
`covariance` is 0 on length mismatch or empty arrays; `correlation` is 0
when either `stddev` is 0; and the `pdf` closure of a zero-`stddev`
dimension is 0 at every argument.  Every operation is a total function
(no division-by-zero branch is reachable, no exception). -/
theorem series_safety :
    (∀ (s : Series) (d : String), s.values.lookup d = none → s.valuesOf d = []) ∧
    (∀ (s : Series) (d : String), s.valuesOf d = [] →
      s.mean d = 0 ∧ s.stddev d = 0) ∧
    (∀ (s : Series) (d1 d2 : String),
      (s.valuesOf d1).length ≠ (s.valuesOf d2).length ∨ (s.valuesOf d1).length = 0 →
      s.covariance d1 d2 = 0) ∧
    (∀ (s : Series) (d1 d2 : String), s.stddev d1 = 0 ∨ s.stddev d2 = 0 →
      s.correlation d1 d2 = 0) ∧
    (∀ (s : Series) (d : String) (x : ℝ), s.stddev d = 0 → s.pdf d x = 0) := by
  refine ⟨?_, ?_, ?_, ?_, ?_⟩
  · intro s d h
    simp [Series.valuesOf, h]
  · intro s d h
    constructor
    · simp [Series.mean, listMean, h]
    · simp [Series.stddev, Series.mean, listStddev, listMean, h]
  · intro s d1 d2 h
    rw [Series.covariance, listCovariance, if_pos h]
  · intro s d1 d2 h
    rw [Series.correlation, if_neg]
    rcases h with h | h <;> rw [h] <;> simp
  · intro s d x h
    rw [Series.pdf, gaussianPdf, if_pos h]

/-- C6 witness: the safety clauses evaluated at concrete series. -/
theorem series_safety_witness :
    (Series.mk []).valuesOf "x" = [] ∧
    ((Series.mk [("x", [])]).mean "x" = 0 ∧ (Series.mk [("x", [])]).stddev "x" = 0) ∧
    (Series.mk [("x", [(1 : ℝ)]), ("y", [])]).covariance "x" "y" = 0 ∧
    (Series.mk [("x", [])]).correlation "x" "y" = 0 ∧
    (Series.mk [("x", [])]).pdf "x" 5 = 0 := by
  have hempty : (Series.mk [("x", [])]).valuesOf "x" = [] := by
    simp [Series.valuesOf, List.lookup]
  have hstd := (series_safety.2.1 (Series.mk [("x", [])]) "x" hempty).2
  refine ⟨series_safety.1 _ "x" rfl, series_safety.2.1 _ "x" hempty,
    series_safety.2.2.1 _ "x" "y" ?_, series_safety.2.2.2.1 _ "x" "y" (Or.inl hstd),
    series_safety.2.2.2.2 _ "x" 5 hstd⟩
  left
  simp [Series.valuesOf, List.lookup]

end Anthro
